/-
Verification of the p2p file-sharing system (tracker `server.py`, peer `peer.py`)
against its natural-language specification.

The Python source is shallowly embedded:
  * the tracker's two global dicts (`files`, `chunks`) become insertion-ordered
    association lists (mirroring Python dict semantics: lookup finds the first
    matching key, update replaces the value in place, insertion appends);
  * Python `set` values become duplicate-free lists (`addPeer` inserts only when
    absent, removal filters all occurrences);
  * each tracker request handler becomes a pure function from registry state to
    new state plus reply (the tracker's accept loop is strictly sequential, so
    the state machine is exactly the fold of `serverStep` over the request list);
  * byte strings become `List Nat`.
-/
import Mathlib

namespace P2P

/-! ## Association lists modelling Python `dict`

Python dict behaviour relevant here: `d.get(k)` returns the value at the first
(unique) occurrence of `k`; `d[k] = v` replaces in place when `k` is present and
appends otherwise, preserving insertion order. -/
/-- Python `d.get(k)`: value stored at key `k`, if present. -/
def lookupA [DecidableEq κ] (m : List (κ × α)) (k : κ) : Option α :=
  match m with
  | [] => none
  | (k', v) :: rest => if k' = k then some v else lookupA rest k

/-- Python `d.get(k, dflt)`. -/
def lookupD [DecidableEq κ] (m : List (κ × α)) (k : κ) (dflt : α) : α :=
  (lookupA m k).getD dflt

/-- Python `k in d`. -/
def hasKey [DecidableEq κ] (m : List (κ × α)) (k : κ) : Bool :=
  (lookupA m k).isSome

/-- Python `d[k] = v`: replace in place when present, append otherwise. -/
def assocSet [DecidableEq κ] (m : List (κ × α)) (k : κ) (v : α) : List (κ × α) :=
  match m with
  | [] => [(k, v)]
  | (k', v') :: rest => if k' = k then (k, v) :: rest else (k', v') :: assocSet rest k v

/-! ## Content store: `chunk_file` (peer.py)

`chunk_file` reads the file `CHUNK_SIZE` bytes at a time (`f.read` returns
exactly `CHUNK_SIZE` bytes while that many remain, the remainder at the end,
and `b""` at end-of-file, which stops the loop).  `CHUNK_SIZE` comes from
`config.py` (not in the tree); per the spec it is a fixed positive block size,
so the embedding is parameterised by it. -/
/-- Function `chunk_file`: split a byte sequence into blocks of `n` bytes, last block
possibly shorter.  (`n = 0` mirrors `f.read(0) = b""`: the loop stops at once.) -/
def chunk_file (n : Nat) : List Nat → List (List Nat)
  | [] => []
  | a :: t =>
    match n with
    | 0 => []
    | m + 1 => (a :: t).take (m + 1) :: chunk_file (m + 1) ((a :: t).drop (m + 1))
termination_by l => l.length
decreasing_by simp; omega

/-! ## Tracker registry (server.py)

The tracker keeps two module-level dicts:
  `files  : dict[str, list[str]]`  — file name ↦ ordered chunk-hash list,
  `chunks : dict[str, set[str]]`   — chunk hash ↦ set of seeding peer addresses.
Python `set` values are modelled as duplicate-free lists: `set()` is `[]`,
`s.add(p)` inserts only when absent, `s.remove(p)` filters `p` out.  The
accept loop handles one connection at a time, so the whole tracker is the
fold of `serverStep` over the incoming request list. -/
structure Registry where
  files : List (String × List String)
  chunks : List (String × List String)
deriving DecidableEq, Repr

def Registry.empty : Registry := ⟨[], []⟩

/-- Operation `chunks[h].add(peer)` on a Python set: insert only when absent. -/
def addPeer (s : List String) (p : String) : List String :=
  if p ∈ s then s else s ++ [p]

/-- Operation `chunk_peers.remove(peer)` on a Python set: drop the element. -/
def removePeer (s : List String) (p : String) : List String :=
  s.filter (fun q => q ≠ p)

/-- Parsed tracker requests (the `CSQ_*` message types of §4.1). -/
inductive CSQ where
  | getaf
  | getfi (file_name : String)
  | getck (chunk_hash : String)
  | regfi (file_name : String) (file_chunks : List String)
  | regck (peer : String) (chunk_hashes : List String)
  | urgpr (peers : List String)
  | urgck (peer : String) (chunk_hashes : List String)
  | unknown (tag : String)
deriving DecidableEq, Repr

/-- Tracker replies (`CSS_*`).  List/count payloads are kept structured; the
code serialises them space-separated. -/
inductive CSS where
  | getaf (entries : List (String × Nat))
  | getfi (chunk_hashes : List String)
  | getck (peers : List String)
  | regfi (count : Nat)
  | regck (count : Nat)
  | urgpr
  | urgck (count : Nat)
  | error (msg : String)
deriving DecidableEq, Repr

/-- Python `set.intersection(*peer_sets)` for a non-empty list of sets; the code
guards the empty case separately, returning the empty set. -/
def commonPeers (sets : List (List String)) : List String :=
  match sets with
  | [] => []
  | s :: rest => s.filter (fun p => rest.all (fun t => p ∈ t))

/-- Function `get_files` (server.py lines 10-20), abstracted to the (file name, seed
count) pairs that the `CSS_GETAF` message lists as `<name> [<count>]`. -/
def get_files (σ : Registry) : List (String × Nat) :=
  σ.files.map (fun fv =>
    (fv.1, if fv.2.isEmpty then 0
           else (commonPeers (fv.2.map (fun h => lookupD σ.chunks h []))).length))

/-- The `CSQ_REGFI` handler (server.py lines 64-73): overwrite the file's
chunk list, then set `chunks[h] = set()` for every listed hash. -/
def regfiStep (σ : Registry) (file_name : String) (file_chunks : List String) :
    Registry × Nat :=
  (⟨assocSet σ.files file_name file_chunks,
    file_chunks.foldl (fun c h => assocSet c h []) σ.chunks⟩,
   file_chunks.length)

/-- The `CSQ_REGCK` handler (server.py lines 75-86): for each listed hash that
is a key of `chunks`, add the peer to its set and bump the count. -/
def regckStep (σ : Registry) (peer : String) (chunk_hashes : List String) :
    Registry × Nat :=
  chunk_hashes.foldl
    (fun st h =>
      if hasKey st.1.chunks h then
        (⟨st.1.files, assocSet st.1.chunks h (addPeer (lookupD st.1.chunks h []) peer)⟩,
         st.2 + 1)
      else st)
    (σ, 0)

/-- The `CSQ_URGPR` handler (server.py lines 88-96): remove every listed peer
from every chunk's seeder set. -/
def urgprStep (σ : Registry) (peers : List String) : Registry :=
  ⟨σ.files, σ.chunks.map (fun kv => (kv.1, kv.2.filter (fun q => q ∉ peers)))⟩

/-- The `CSQ_URGCK` handler (server.py lines 98-110): for each listed hash
present in `chunks` whose set holds the peer, remove it and bump the count. -/
def urgckStep (σ : Registry) (peer : String) (chunk_hashes : List String) :
    Registry × Nat :=
  chunk_hashes.foldl
    (fun st h =>
      if hasKey st.1.chunks h then
        if peer ∈ lookupD st.1.chunks h [] then
          (⟨st.1.files, assocSet st.1.chunks h (removePeer (lookupD st.1.chunks h []) peer)⟩,
           st.2 + 1)
        else st
      else st)
    (σ, 0)

/-- One iteration of the tracker's accept loop (server.py lines 45-115):
dispatch on the request type, mutate the registry, reply. -/
def serverStep (σ : Registry) : CSQ → Registry × CSS
  | .getaf => (σ, .getaf (get_files σ))
  | .getfi file_name => (σ, .getfi (lookupD σ.files file_name []))
  | .getck chunk_hash => (σ, .getck (lookupD σ.chunks chunk_hash []))
  | .regfi file_name file_chunks =>
      let r := regfiStep σ file_name file_chunks
      (r.1, .regfi r.2)
  | .regck peer chunk_hashes =>
      let r := regckStep σ peer chunk_hashes
      (r.1, .regck r.2)
  | .urgpr peers => (urgprStep σ peers, .urgpr)
  | .urgck peer chunk_hashes =>
      let r := urgckStep σ peer chunk_hashes
      (r.1, .urgck r.2)
  | .unknown tag => (σ, .error ("Unknown request type " ++ tag))

/-- Run the tracker's sequential accept loop over a list of requests. -/
def applyAll (reqs : List CSQ) (σ : Registry) : Registry :=
  reqs.foldl (fun s r => (serverStep s r).1) σ

/-! ## Peer selection: `choose_peer` (peer.py lines 110-127)

`choose_peer` probes every candidate; a candidate that answers is stored in
the dict `active_peers` with value `data.decode()[MSG_TYPE_SIZE:]` — the text
after the reply header, i.e. the seeder's worker count rendered in decimal,
**kept as a `str`**.  `min(active_peers, key=..., default=None)` then compares
those strings with Python `<`, which is lexicographic on code points, keeping
the first minimum.  The network is abstracted: each candidate comes paired
with `some payload` when it answered within the timeout and `none` when the
connection failed or timed out (such candidates are skipped by the
`except ... continue`). -/
/-- A peer's dialable endpoint, `(host, port)`. -/
abbrev PeerAddr := String × Nat

/-- Python `str` `<` on the underlying character sequences: lexicographic
comparison of code points. -/
def charsLt : List Char → List Char → Bool
  | [], [] => false
  | [], _ :: _ => true
  | _ :: _, [] => false
  | c :: cs, d :: ds => if c < d then true else if d < c then false else charsLt cs ds

/-- Python `str` `<`. -/
def pyStrLt (a b : String) : Bool := charsLt a.data b.data

/-- Python `min(d, key=lambda k: d[k], default=None)` over an insertion-ordered dict:
scan the keys in order, keeping the current key unless a later key has a
strictly smaller value — i.e. the first key attaining the minimal value. -/
def selectMinKey (l : List (PeerAddr × String)) : Option PeerAddr :=
  match l with
  | [] => none
  | x :: xs =>
      some ((xs.foldl (fun best y => if pyStrLt y.2 best.2 then y else best) x).1)

/-- Function `choose_peer`: build `active_peers` from the probe outcomes (dict insert,
skipping candidates that did not answer), then take the minimum-load key. -/
def choose_peer (probes : List (PeerAddr × Option String)) : Option PeerAddr :=
  selectMinKey
    (probes.foldl
      (fun acc pr =>
        match pr.2 with
        | none => acc
        | some load => assocSet acc pr.1 load)
      [])

/-- Numeric value of a decimal digit string (the worker count the PPONG
payload renders). -/
def decimalVal (s : String) : Nat :=
  s.data.foldl (fun acc c => acc * 10 + (c.toNat - 48)) 0

/-- The specification's reading of peer selection: identical probing, but the
reported load is compared **as the numeric worker count**.  Stated only to be
compared against `choose_peer`, which is what the code does. -/
def choose_peer_numeric (probes : List (PeerAddr × Option String)) : Option PeerAddr :=
  match probes.foldl
      (fun acc pr =>
        match pr.2 with
        | none => acc
        | some load => assocSet acc pr.1 load)
      [] with
  | [] => none
  | x :: xs =>
      some ((xs.foldl
        (fun best y => if decimalVal y.2 < decimalVal best.2 then y else best) x).1)

/-! ## Seeding side: `handle_peer` (peer.py lines 302-341)

Each inbound connection is handed to one freshly spawned daemon worker thread
running `handle_peer` (peer.py lines 396-403).  `handle_peer` reads one
request and dispatches.  On `PPQ_GETCK` for a chunk absent from the local
store it replies `PPS_ERROR ...`, closes the socket and calls `sys.exit(0)`;
in CPython, `sys.exit` raises `SystemExit`, which on a worker thread is caught
by the threading machinery and terminates **only that thread** — the accept
loop keeps running (it also skips the `peers_semaphore.release()`, recorded in
the outcome).  The local chunk store `chunks/<user>/` is modelled as an
association list from chunk hash to the stored bytes. -/
/-- Parsed peer-to-peer requests (`PPQ_*`). -/
inductive PPQ where
  | pping
  | getck (chunk_hash : String)
  | unknown (tag : String)
deriving DecidableEq, Repr

/-- Peer-to-peer replies. `chunkData` carries the raw chunk bytes of
`PPS_GETCK`; `errorReply` is `PPS_ERROR <msg>`; the unknown-tag branch sends a
(mislabelled) `CSS_ERROR <msg>`. -/
inductive PPS where
  | ppong (active_worker_count : Nat)
  | chunkData (bytes : List Nat)
  | errorReply (msg : String)
  | cssError (msg : String)
deriving DecidableEq, Repr

/-- What one `handle_peer` worker did with its single connection. -/
structure HandleOutcome where
  reply : PPS
  /-- the worker closed its socket -/
  connectionClosed : Bool
  /-- the worker raised `SystemExit` (`sys.exit(0)`), ending only this thread -/
  threadExited : Bool
  /-- the worker released `peers_semaphore` before finishing -/
  semaphoreReleased : Bool
  /-- the seeding process itself terminates (never: `sys.exit` on a worker
  thread does not reach the main thread's accept loop) -/
  processExited : Bool
deriving DecidableEq, Repr

/-- Function `handle_peer`: one worker, one request.  `activeCount` is
`threading.active_count()` at reply time. -/
def handle_peer (store : List (String × List Nat)) (activeCount : Nat) :
    PPQ → HandleOutcome
  | .pping =>
      ⟨.ppong (activeCount - 1), true, false, true, false⟩
  | .getck chunk_hash =>
      if hasKey store chunk_hash then
        ⟨.chunkData (lookupD store chunk_hash []), true, false, true, false⟩
      else
        ⟨.errorReply "Chunk unavailable on requested peer.", true, true, false, false⟩
  | .unknown tag =>
      ⟨.cssError ("Unknown request type " ++ tag), true, false, true, false⟩

/-- The seeding accept loop: every inbound request is served by its own worker
thread, so the replies are the per-request outcomes in order — a worker's
`SystemExit` never stops the loop (`processExited` is never set). -/
def serveAll (store : List (String × List Nat)) (activeCount : Nat)
    (reqs : List PPQ) : List PPS :=
  reqs.map (fun r => (handle_peer store activeCount r).reply)

/-! ## Download orchestration: `download_file` (peer.py lines 230-300)

After resolving `chunk_hashes`, the code builds
`file_chunks = { h: None for h in chunk_hashes }` — a dict keyed by chunk
hash, so duplicate occurrences collapse onto one entry, keyed in
first-occurrence order.  After the join barrier:
  * `if None in file_chunks.values()`: print "Missing some chunks" and
    `sys.exit(1)` — nothing has been written under `downloads/`;
  * otherwise iterate `file_chunks.items()` in order; for each entry first
    compare the stored hash with the digest of the received bytes, calling
    `sys.exit(1)` ("Integrity check failed") on mismatch, else **append** the
    bytes to `downloads/<user>/<file_name>`.
The digest `hashlib.sha1(...).hexdigest()` is abstracted as a parameter
`hashFn`; a worker that got no data leaves its entry `None`, modelled by the
result map `result : String → Option (List Nat)`. -/
/-- Keys of the dict `{ h: ... for h in l }`: first occurrence of each
element, in order. -/
def dictKeys : List String → List String
  | [] => []
  | h :: t => h :: dictKeys (t.filter (fun x => x ≠ h))
termination_by l => l.length
decreasing_by
  simp only [List.length_cons]
  exact Nat.lt_succ_of_le (List.length_filter_le _ _)

/-- The write-out loop over `file_chunks.items()`: returns the bytes appended
to the download file by this loop and whether an integrity failure aborted
it.  On the first mismatching digest the loop exits; earlier iterations have
already appended their bytes. -/
def write_chunks (hashFn : List Nat → String) :
    List (String × List Nat) → List Nat × Bool
  | [] => ([], false)
  | (h, bs) :: rest =>
      if hashFn bs ≠ h then ([], true)
      else
        let r := write_chunks hashFn rest
        (bs ++ r.1, r.2)

/-- Failure/result summary of one `download_file` run past the join barrier. -/
structure DLResult where
  /-- the run ended in `sys.exit(1)` (either missing chunks or integrity) -/
  failed : Bool
  /-- "Integrity check failed. Download compromised." was reported -/
  integrityFailure : Bool
  /-- the bytes appended to `downloads/<userId>/<fileName>`; `[]` means the
  output file was never written -/
  output : List Nat
deriving DecidableEq, Repr

/-- Function `download_file` from the join barrier on (peer.py lines 286-300). -/
def download_finish (hashFn : List Nat → String) (chunk_hashes : List String)
    (result : String → Option (List Nat)) : DLResult :=
  let keys := dictKeys chunk_hashes
  if keys.any (fun k => (result k).isNone) then
    ⟨true, false, []⟩
  else
    let w := write_chunks hashFn (keys.map (fun k => (k, (result k).getD [])))
    ⟨w.2, w.2, w.1⟩

/-! ### Reachable-state invariant machinery -/
/-- Every chunk hash referenced by some registered file is a key of the
chunk-to-seeders map. -/
def chunkKeysInv (σ : Registry) : Prop :=
  ∀ f hs, lookupA σ.files f = some hs → ∀ h ∈ hs, hasKey σ.chunks h = true

/-- Does this request overwrite the chunk-hash sequence registered under
`f`?  Only `REGFI` for exactly that name does. -/
def overwritesFile (f : String) : CSQ → Bool
  | .regfi g _ => g = f
  | _ => false

/-! ## Claim C1 -/
/-- Hash oracle for the C1 counterexample: bytes `[0]` digest to `"a"`,
anything else to `"z"`. -/
def c1Hash : List Nat → String := fun bs => if bs = [0] then "a" else "z"

/-- Worker results for the C1 counterexample: chunk `"a"` received `[0]`
(which verifies), chunk `"b"` received `[1]` (whose digest `"z"`
mismatches). -/
def c1Result : String → Option (List Nat) := fun h => if h = "a" then some [0] else some [1]

/-- Chunk contents for the C10 witness. -/
def c10Content : String → List Nat := fun h => if h = "a" then [1] else [2]

/-- Hash oracle for the C10 witness, consistent with `c10Content`. -/
def c10Hash : List Nat → String := fun bs => if bs = [1] then "a" else "b"

/-! ## Claim C2 -/
/-- Probe outcomes for the C2 counterexample: candidate `pa` replies load
`"9"`, candidate `pb` replies load `"10"`. -/
def c2Probes : List (PeerAddr × Option String) :=
  [(("pa", 1), some "9"), (("pb", 2), some "10")]

/-! ## Theorems -/

@[simp] theorem lookupA_nil [DecidableEq κ] (k : κ) : lookupA ([] : List (κ × α)) k = none := rfl

@[simp] theorem lookupA_cons [DecidableEq κ] (k' k : κ) (v : α) (rest : List (κ × α)) :
    lookupA ((k', v) :: rest) k = if k' = k then some v else lookupA rest k := rfl

theorem lookupA_assocSet [DecidableEq κ] (m : List (κ × α)) (k k' : κ) (v : α) :
    lookupA (assocSet m k v) k' = if k = k' then some v else lookupA m k' := by
  induction m with
  | nil => simp [assocSet]
  | cons hd tl ih =>
      obtain ⟨k₀, v₀⟩ := hd
      by_cases h₀ : k₀ = k
      · subst h₀
        by_cases h₁ : k₀ = k'
        · subst h₁; simp [assocSet]
        · simp [assocSet, h₁]
      · by_cases h₁ : k₀ = k'
        · subst h₁
          have h₂ : ¬k = k₀ := fun h => h₀ h.symm
          simp [assocSet, h₀, h₂, ih]
        · simp [assocSet, h₀, h₁, ih]

theorem hasKey_assocSet [DecidableEq κ] (m : List (κ × α)) (k k' : κ) (v : α) :
    hasKey (assocSet m k v) k' = (decide (k = k') || hasKey m k') := by
  by_cases h : k = k' <;> simp [hasKey, lookupA_assocSet, h]

/-- Looking up in a value-mapped association list transforms the looked-up value. -/
theorem lookupA_mapVal [DecidableEq κ] (m : List (κ × α)) (g : κ → α → β) (k : κ) :
    lookupA (m.map (fun kv => (kv.1, g kv.1 kv.2))) k = (lookupA m k).map (g k) := by
  induction m with
  | nil => simp
  | cons hd tl ih =>
      obtain ⟨k₀, v₀⟩ := hd
      by_cases h : k₀ = k
      · subst h; simp
      · simp [h, ih]

@[simp] theorem chunk_file_nil (n : Nat) : chunk_file n [] = [] := by
  rw [chunk_file]

theorem chunk_file_cons (m : Nat) (a : Nat) (t : List Nat) :
    chunk_file (m + 1) (a :: t) =
      (a :: t).take (m + 1) :: chunk_file (m + 1) ((a :: t).drop (m + 1)) := by
  rw [chunk_file]

theorem chunk_file_ne_nil (m : Nat) (a : Nat) (t : List Nat) :
    chunk_file (m + 1) (a :: t) ≠ [] := by
  rw [chunk_file_cons]; simp

theorem chunk_file_drop_length (m : Nat) (a : Nat) (t : List Nat) (k : Nat)
    (h : (a :: t).length ≤ k + 1) : ((a :: t).drop (m + 1)).length ≤ k := by
  simp at h ⊢; omega

theorem chunk_file_join_aux (m : Nat) :
    ∀ (k : Nat) (l : List Nat), l.length ≤ k → (chunk_file (m + 1) l).flatten = l := by
  intro k
  induction k with
  | zero =>
      intro l hl
      obtain rfl : l = [] := List.eq_nil_of_length_eq_zero (Nat.le_zero.mp hl)
      simp
  | succ k ih =>
      intro l hl
      cases l with
      | nil => simp
      | cons a t =>
          rw [chunk_file_cons]
          rw [List.flatten_cons, ih _ (chunk_file_drop_length m a t k hl),
            List.take_append_drop]

theorem chunk_file_join (m : Nat) (l : List Nat) :
    (chunk_file (m + 1) l).flatten = l :=
  chunk_file_join_aux m l.length l le_rfl

theorem chunk_file_length_le_aux (m : Nat) :
    ∀ (k : Nat) (l : List Nat), l.length ≤ k →
      ∀ c ∈ chunk_file (m + 1) l, c.length ≤ m + 1 := by
  intro k
  induction k with
  | zero =>
      intro l hl
      obtain rfl : l = [] := List.eq_nil_of_length_eq_zero (Nat.le_zero.mp hl)
      simp
  | succ k ih =>
      intro l hl
      cases l with
      | nil => simp
      | cons a t =>
          rw [chunk_file_cons]
          intro c hc
          rcases List.mem_cons.mp hc with h | h
          · subst h; simp
          · exact ih _ (chunk_file_drop_length m a t k hl) c h

theorem chunk_file_length_le (m : Nat) (l : List Nat) :
    ∀ c ∈ chunk_file (m + 1) l, c.length ≤ m + 1 :=
  chunk_file_length_le_aux m l.length l le_rfl

theorem chunk_file_full_blocks_aux (m : Nat) :
    ∀ (k : Nat) (l : List Nat), l.length ≤ k →
      ∀ c ∈ (chunk_file (m + 1) l).dropLast, c.length = m + 1 := by
  intro k
  induction k with
  | zero =>
      intro l hl
      obtain rfl : l = [] := List.eq_nil_of_length_eq_zero (Nat.le_zero.mp hl)
      simp
  | succ k ih =>
      intro l hl
      cases l with
      | nil => simp
      | cons a t =>
          rw [chunk_file_cons]
          intro c hc
          cases hrest : chunk_file (m + 1) ((a :: t).drop (m + 1)) with
          | nil => rw [hrest] at hc; simp at hc
          | cons r rs =>
              rw [hrest, List.dropLast_cons₂] at hc
              rcases List.mem_cons.mp hc with h | h
              · subst h
                have hne : (a :: t).drop (m + 1) ≠ [] := by
                  intro hd; rw [hd] at hrest; simp at hrest
                have hlen : m + 1 < (a :: t).length := by
                  by_contra hle
                  push_neg at hle
                  exact hne (List.drop_eq_nil_of_le hle)
                simp [List.length_cons] at hlen
                simp [List.length_take]
                omega
              · have := ih _ (chunk_file_drop_length m a t k hl) c
                rw [hrest] at this
                exact this h

theorem chunk_file_full_blocks (m : Nat) (l : List Nat) :
    ∀ c ∈ (chunk_file (m + 1) l).dropLast, c.length = m + 1 :=
  chunk_file_full_blocks_aux m l.length l le_rfl

theorem chunk_file_chunks_ne_nil_aux (m : Nat) :
    ∀ (k : Nat) (l : List Nat), l.length ≤ k →
      ∀ c ∈ chunk_file (m + 1) l, c ≠ [] := by
  intro k
  induction k with
  | zero =>
      intro l hl
      obtain rfl : l = [] := List.eq_nil_of_length_eq_zero (Nat.le_zero.mp hl)
      simp
  | succ k ih =>
      intro l hl
      cases l with
      | nil => simp
      | cons a t =>
          rw [chunk_file_cons]
          intro c hc
          rcases List.mem_cons.mp hc with h | h
          · subst h; simp
          · exact ih _ (chunk_file_drop_length m a t k hl) c h

theorem chunk_file_chunks_ne_nil (m : Nat) (l : List Nat) :
    ∀ c ∈ chunk_file (m + 1) l, c ≠ [] :=
  chunk_file_chunks_ne_nil_aux m l.length l le_rfl

/-! ### Registry lemmas -/
@[simp] theorem addPeer_nil (p : String) : addPeer [] p = [p] := rfl

theorem mem_addPeer (s : List String) (p q : String) :
    q ∈ addPeer s p ↔ q ∈ s ∨ q = p := by
  unfold addPeer
  by_cases h : p ∈ s
  · rw [if_pos h]
    constructor
    · exact Or.inl
    · rintro (hq | rfl)
      · exact hq
      · exact h
  · rw [if_neg h]; simp

theorem addPeer_mem_self (s : List String) (p : String) : p ∈ addPeer s p := by
  rw [mem_addPeer]; right; rfl

theorem addPeer_idem (s : List String) (p : String) :
    addPeer (addPeer s p) p = addPeer s p := by
  unfold addPeer
  by_cases h : p ∈ s <;> simp [h]

/-- After the `REGFI` loop `for h in file_chunks: chunks[h] = set()`, every
listed hash maps to the empty set and every other key is untouched. -/
theorem lookupA_regfiFold (hs : List String) (c : List (String × List String))
    (x : String) :
    lookupA (hs.foldl (fun c h => assocSet c h []) c) x =
      if x ∈ hs then some [] else lookupA c x := by
  induction hs generalizing c with
  | nil => simp
  | cons h t ih =>
      simp only [List.foldl_cons]
      rw [ih]
      by_cases hxt : x ∈ t
      · simp [hxt]
      · by_cases hxh : x = h
        · subst hxh; simp [hxt, lookupA_assocSet]
        · have : ¬h = x := fun he => hxh he.symm
          simp [hxt, hxh, lookupA_assocSet, this]

theorem regfiStep_files (σ : Registry) (f : String) (hs : List String) :
    (regfiStep σ f hs).1.files = assocSet σ.files f hs := rfl

theorem regfiStep_chunks_lookup (σ : Registry) (f : String) (hs : List String)
    (x : String) :
    lookupA (regfiStep σ f hs).1.chunks x =
      if x ∈ hs then some [] else lookupA σ.chunks x :=
  lookupA_regfiFold hs σ.chunks x

/-- The `REGCK` fold, characterised: the files map is untouched; a listed hash
that is a key gets the peer added; everything else is untouched. -/
theorem regckStep_lookup (p : String) (hs : List String) (σ₀ : Registry) (n₀ : Nat)
    (x : String) :
    lookupA (hs.foldl
      (fun st h =>
        if hasKey st.1.chunks h then
          (⟨st.1.files, assocSet st.1.chunks h (addPeer (lookupD st.1.chunks h []) p)⟩,
           st.2 + 1)
        else st)
      (σ₀, n₀)).1.chunks x =
      if hasKey σ₀.chunks x ∧ x ∈ hs then
        some (addPeer (lookupD σ₀.chunks x []) p)
      else lookupA σ₀.chunks x := by
  induction hs generalizing σ₀ n₀ with
  | nil => simp
  | cons h t ih =>
      simp only [List.foldl_cons]
      by_cases hk : hasKey σ₀.chunks h
      · rw [if_pos hk, ih]
        dsimp only
        have hk' := hk
        simp only [hasKey, lookupD] at hk' ⊢
        by_cases hxh : x = h
        · subst hxh
          by_cases hxt : x ∈ t <;>
            simp [lookupA_assocSet, hxt, hk', addPeer_idem]
        · have hhx : ¬h = x := fun he => hxh he.symm
          by_cases hxt : x ∈ t <;>
            simp [lookupA_assocSet, hhx, hxh, hxt]
      · rw [if_neg hk, ih]
        by_cases hxh : x = h
        · subst hxh; simp [hk]
        · simp [List.mem_cons, hxh]

theorem regckStep_chunks_lookup (σ : Registry) (p : String) (hs : List String)
    (x : String) :
    lookupA (regckStep σ p hs).1.chunks x =
      if hasKey σ.chunks x ∧ x ∈ hs then
        some (addPeer (lookupD σ.chunks x []) p)
      else lookupA σ.chunks x :=
  regckStep_lookup p hs σ 0 x

theorem regckStep_files_aux (p : String) (hs : List String) (σ₀ : Registry) (n₀ : Nat) :
    (hs.foldl
      (fun st h =>
        if hasKey st.1.chunks h then
          (⟨st.1.files, assocSet st.1.chunks h (addPeer (lookupD st.1.chunks h []) p)⟩,
           st.2 + 1)
        else st)
      (σ₀, n₀)).1.files = σ₀.files := by
  induction hs generalizing σ₀ n₀ with
  | nil => rfl
  | cons h t ih =>
      simp only [List.foldl_cons]
      by_cases hk : hasKey σ₀.chunks h
      · simp only [hk, if_pos]; exact ih _ _
      · simp only [hk, if_neg, Bool.false_eq_true, not_false_eq_true]; exact ih _ _

theorem regckStep_files (σ : Registry) (p : String) (hs : List String) :
    (regckStep σ p hs).1.files = σ.files :=
  regckStep_files_aux p hs σ 0

/-- The `REGCK` reply count is the number of listed hashes (with multiplicity)
that are keys of the registry. -/
theorem regckStep_count_aux (p : String) (hs : List String) (σ₀ : Registry) (n₀ : Nat) :
    (hs.foldl
      (fun st h =>
        if hasKey st.1.chunks h then
          (⟨st.1.files, assocSet st.1.chunks h (addPeer (lookupD st.1.chunks h []) p)⟩,
           st.2 + 1)
        else st)
      (σ₀, n₀)).2 = n₀ + (hs.filter (fun h => hasKey σ₀.chunks h)).length := by
  induction hs generalizing σ₀ n₀ with
  | nil => simp
  | cons h t ih =>
      simp only [List.foldl_cons]
      by_cases hk : hasKey σ₀.chunks h
      · rw [if_pos hk, ih]
        dsimp only
        have hkeys : ∀ x, hasKey (assocSet σ₀.chunks h (addPeer (lookupD σ₀.chunks h []) p)) x
            = hasKey σ₀.chunks x := by
          intro x
          rw [hasKey_assocSet]
          by_cases hx : h = x
          · subst hx; simp [hk]
          · simp [hx]
        have hfil :
            t.filter (fun h' =>
              hasKey (assocSet σ₀.chunks h (addPeer (lookupD σ₀.chunks h []) p)) h')
            = t.filter (fun h' => hasKey σ₀.chunks h') :=
          List.filter_congr (fun x _ => hkeys x)
        rw [hfil]
        simp [List.filter_cons, hk]
        omega
      · rw [if_neg hk, ih]
        simp [List.filter_cons, hk]

theorem regckStep_count (σ : Registry) (p : String) (hs : List String) :
    (regckStep σ p hs).2 = (hs.filter (fun h => hasKey σ.chunks h)).length := by
  rw [regckStep, regckStep_count_aux]; simp

theorem charsLt_irrefl (l : List Char) : charsLt l l = false := by
  induction l with
  | nil => rfl
  | cons c cs ih => simp [charsLt, ih]

theorem charsLt_cons_iff (c d : Char) (cs ds : List Char) :
    charsLt (c :: cs) (d :: ds) = true ↔ c < d ∨ (c = d ∧ charsLt cs ds = true) := by
  simp only [charsLt]
  by_cases h1 : c < d
  · simp [h1]
  · by_cases h2 : d < c
    · have hne : ¬c = d := fun he => absurd (he ▸ h2) (lt_irrefl c)
      simp [h1, h2, hne]
    · have heq : c = d := le_antisymm (not_lt.mp h2) (not_lt.mp h1)
      simp [h1, h2, heq]

theorem charsLt_trans :
    ∀ {a b c : List Char}, charsLt a b = true → charsLt b c = true → charsLt a c = true := by
  intro a
  induction a with
  | nil =>
      intro b c hab hbc
      cases b with
      | nil => simp [charsLt] at hab
      | cons y ys =>
          cases c with
          | nil => simp [charsLt] at hbc
          | cons z zs => simp [charsLt]
  | cons x xs ih =>
      intro b c hab hbc
      cases b with
      | nil => simp [charsLt] at hab
      | cons y ys =>
          cases c with
          | nil => simp [charsLt] at hbc
          | cons z zs =>
              rw [charsLt_cons_iff] at hab hbc ⊢
              rcases hab with hxy | ⟨hxy, hab'⟩
              · rcases hbc with hyz | ⟨hyz, _⟩
                · exact Or.inl (lt_trans hxy hyz)
                · exact Or.inl (hyz ▸ hxy)
              · rcases hbc with hyz | ⟨hyz, hbc'⟩
                · exact Or.inl (hxy ▸ hyz)
                · exact Or.inr ⟨hxy.trans hyz, ih hab' hbc'⟩

theorem charsLt_eq_of_not :
    ∀ (a b : List Char), charsLt a b = false → charsLt b a = false → a = b := by
  intro a
  induction a with
  | nil =>
      intro b hab _
      cases b with
      | nil => rfl
      | cons y ys => simp [charsLt] at hab
  | cons x xs ih =>
      intro b hab hba
      cases b with
      | nil => simp [charsLt] at hba
      | cons y ys =>
          have hab' := (Bool.not_eq_true _).mpr hab
          have hba' := (Bool.not_eq_true _).mpr hba
          rw [charsLt_cons_iff] at hab' hba'
          push_neg at hab' hba'
          have heq : x = y := le_antisymm hba'.1 hab'.1
          have htl : xs = ys := by
            apply ih
            · exact Bool.not_eq_true _ |>.mp (hab'.2 heq)
            · exact Bool.not_eq_true _ |>.mp (hba'.2 heq.symm)
          rw [heq, htl]

theorem pyStrLt_irrefl (a : String) : pyStrLt a a = false :=
  charsLt_irrefl a.data

theorem pyStrLt_trans {a b c : String} (h1 : pyStrLt a b = true)
    (h2 : pyStrLt b c = true) : pyStrLt a c = true :=
  charsLt_trans h1 h2

theorem pyStrLt_eq_of_not {a b : String} (h1 : pyStrLt a b = false)
    (h2 : pyStrLt b a = false) : a = b := by
  cases a with
  | mk la =>
      cases b with
      | mk lb =>
          have : la = lb := charsLt_eq_of_not la lb h1 h2
          rw [this]

/-! ### Lemmas about `choose_peer` -/
theorem foldMin_mem (x : PeerAddr × String) (xs : List (PeerAddr × String)) :
    xs.foldl (fun best y => if pyStrLt y.2 best.2 then y else best) x ∈ x :: xs := by
  induction xs generalizing x with
  | nil => simp
  | cons z zs ih =>
      simp only [List.foldl_cons]
      by_cases hp : pyStrLt z.2 x.2
      · rw [if_pos hp]
        have h := ih z
        rcases List.mem_cons.mp h with h | h
        · rw [h]; simp
        · simp [h]
      · rw [if_neg hp]
        have h := ih x
        rcases List.mem_cons.mp h with h | h
        · rw [h]; simp
        · simp [h]

theorem foldMin_min (x : PeerAddr × String) (xs : List (PeerAddr × String)) :
    ∀ y ∈ x :: xs,
      pyStrLt y.2 (xs.foldl (fun best y => if pyStrLt y.2 best.2 then y else best) x).2
        = false := by
  induction xs generalizing x with
  | nil =>
      intro y hy
      rcases List.mem_cons.mp hy with h | h
      · rw [h]; exact pyStrLt_irrefl _
      · simp at h
  | cons z zs ih =>
      intro y hy
      simp only [List.foldl_cons]
      by_cases hp : pyStrLt z.2 x.2
      · rw [if_pos hp]
        rcases List.mem_cons.mp hy with h | h
        · rw [h]
          by_contra hx
          have hx' : pyStrLt x.2 _ = true := Bool.of_not_eq_false hx
          have hz : pyStrLt z.2 (zs.foldl
              (fun best y => if pyStrLt y.2 best.2 then y else best) z).2 = true :=
            pyStrLt_trans hp hx'
          have := ih z z (List.mem_cons_self z zs)
          rw [this] at hz; exact Bool.false_ne_true hz
        · exact ih z y h
      · rw [if_neg hp]
        rcases List.mem_cons.mp hy with h | h
        · rw [h]; exact ih x x (List.mem_cons_self x zs)
        · rcases List.mem_cons.mp h with h | h
          · rw [h]
            by_contra hz
            have hz' : pyStrLt z.2 _ = true := Bool.of_not_eq_false hz
            have hxr := ih x x (List.mem_cons_self x zs)
            by_cases hxz : pyStrLt x.2 z.2 = true
            · have : pyStrLt x.2 _ = true := pyStrLt_trans hxz hz'
              rw [hxr] at this; exact Bool.false_ne_true this
            · have heq : x.2 = z.2 :=
                pyStrLt_eq_of_not (Bool.not_eq_true _ |>.mp hxz)
                  (Bool.eq_false_iff.mpr hp)
              rw [← heq] at hz'
              rw [hxr] at hz'; exact Bool.false_ne_true hz'
          · exact ih x y (List.mem_cons_of_mem x h)

theorem foldMin_first (x : PeerAddr × String) (xs : List (PeerAddr × String)) :
    ∃ l1 l2,
      x :: xs = l1 ++ (xs.foldl (fun best y => if pyStrLt y.2 best.2 then y else best) x) :: l2
      ∧ ∀ y ∈ l1,
          pyStrLt (xs.foldl (fun best y => if pyStrLt y.2 best.2 then y else best) x).2 y.2
            = true := by
  induction xs generalizing x with
  | nil => exact ⟨[], [], rfl, by simp⟩
  | cons z zs ih =>
      simp only [List.foldl_cons]
      by_cases hp : pyStrLt z.2 x.2
      · rw [if_pos hp]
        obtain ⟨l1, l2, heq, hlt⟩ := ih z
        cases l1 with
        | nil =>
            simp only [List.nil_append] at heq
            injection heq with h1 h2
            refine ⟨[x], l2, ?_, ?_⟩
            · rw [List.singleton_append, ← h1, ← h2]
            · intro y hy
              rw [List.mem_singleton.mp hy, ← h1]
              exact hp
        | cons w t =>
            rw [List.cons_append] at heq
            injection heq with h1 h2
            refine ⟨x :: z :: t, l2, ?_, ?_⟩
            · rw [List.cons_append, List.cons_append]
              exact congrArg (List.cons x) (congrArg (List.cons z) h2)
            · intro y hy
              rcases List.mem_cons.mp hy with hy' | hy'
              · have hrz : pyStrLt
                    (zs.foldl (fun best y => if pyStrLt y.2 best.2 then y else best) z).2 z.2
                    = true := by
                  apply hlt
                  rw [← h1]; exact List.mem_cons_self z t
                rw [hy']
                exact pyStrLt_trans hrz hp
              · rcases List.mem_cons.mp hy' with hy'' | hy''
                · rw [hy'']
                  apply hlt; rw [← h1]; exact List.mem_cons_self z t
                · exact hlt y (List.mem_cons_of_mem w hy'')
      · rw [if_neg hp]
        obtain ⟨l1, l2, heq, hlt⟩ := ih x
        cases l1 with
        | nil =>
            simp only [List.nil_append] at heq
            injection heq with h1 h2
            refine ⟨[], z :: zs, ?_, by simp⟩
            rw [List.nil_append, ← h1]
        | cons w t =>
            rw [List.cons_append] at heq
            injection heq with h1 h2
            refine ⟨x :: z :: t, l2, ?_, ?_⟩
            · rw [List.cons_append, List.cons_append]
              exact congrArg (List.cons x) (congrArg (List.cons z) h2)
            · have hrx : pyStrLt
                  (zs.foldl (fun best y => if pyStrLt y.2 best.2 then y else best) x).2 x.2
                  = true := by
                apply hlt
                rw [← h1]; exact List.mem_cons_self x t
              intro y hy
              rcases List.mem_cons.mp hy with hy' | hy'
              · rw [hy']; exact hrx
              · rcases List.mem_cons.mp hy' with hy'' | hy''
                · rw [hy'']
                  by_cases hry : pyStrLt
                      (zs.foldl (fun best y => if pyStrLt y.2 best.2 then y else best) x).2 z.2
                      = true
                  · exact hry
                  · by_cases hyr : pyStrLt z.2
                        (zs.foldl (fun best y => if pyStrLt y.2 best.2 then y else best) x).2
                        = true
                    · have : pyStrLt z.2 x.2 = true := pyStrLt_trans hyr hrx
                      exact absurd this (by simp [hp])
                    · have heq2 :
                          (zs.foldl (fun best y => if pyStrLt y.2 best.2 then y else best) x).2
                            = z.2 :=
                        pyStrLt_eq_of_not (Bool.not_eq_true _ |>.mp hry)
                          (Bool.not_eq_true _ |>.mp hyr)
                      rw [heq2] at hrx
                      exact absurd hrx (by simp [hp])
                · exact hlt y (List.mem_cons_of_mem w hy'')

/-- When the key is absent, a dict insert appends at the end. -/
theorem assocSet_append [DecidableEq κ] (m : List (κ × α)) (k : κ) (v : α)
    (h : hasKey m k = false) : assocSet m k v = m ++ [(k, v)] := by
  induction m with
  | nil => rfl
  | cons hd tl ih =>
      obtain ⟨k₀, v₀⟩ := hd
      simp only [hasKey, lookupA_cons] at h
      by_cases hk : k₀ = k
      · rw [if_pos hk] at h; simp at h
      · rw [if_neg hk] at h
        simp only [assocSet, if_neg hk, List.cons_append]
        rw [ih h]

theorem lookupA_append [DecidableEq κ] (m m' : List (κ × α)) (k : κ) :
    lookupA (m ++ m') k =
      match lookupA m k with
      | some v => some v
      | none => lookupA m' k := by
  induction m with
  | nil => simp
  | cons hd tl ih =>
      obtain ⟨k₀, v₀⟩ := hd
      by_cases hk : k₀ = k
      · simp [hk]
      · simp [hk, ih]

/-- Building `active_peers` over candidates with pairwise-distinct addresses
yields exactly the answering candidates paired with their reported loads, in
probe order. -/
theorem activeBuild_eq (probes : List (PeerAddr × Option String))
    (acc : List (PeerAddr × String))
    (hnd : (probes.map Prod.fst).Nodup)
    (hdisj : ∀ pr ∈ probes, hasKey acc pr.1 = false) :
    probes.foldl
      (fun acc pr =>
        match pr.2 with
        | none => acc
        | some load => assocSet acc pr.1 load)
      acc
    = acc ++ probes.filterMap (fun pr => pr.2.map (fun l => (pr.1, l))) := by
  induction probes generalizing acc with
  | nil => simp
  | cons pr rest ih =>
      simp only [List.map_cons, List.nodup_cons] at hnd
      cases hpr : pr.2 with
      | none =>
          simp only [List.foldl_cons, hpr, List.filterMap_cons, Option.map_none]
          exact ih acc hnd.2 (fun q hq => hdisj q (List.mem_cons_of_mem pr hq))
      | some load =>
          simp only [List.foldl_cons, hpr, List.filterMap_cons, Option.map_some]
          rw [assocSet_append acc pr.1 load (hdisj pr (List.mem_cons_self pr rest))]
          rw [ih (acc ++ [(pr.1, load)]) hnd.2 ?_]
          · rw [List.append_assoc]; rfl
          · intro q hq
            simp only [hasKey, lookupA_append]
            have h1 : hasKey acc q.1 = false := hdisj q (List.mem_cons_of_mem pr hq)
            simp only [hasKey] at h1
            have h2 : ¬pr.1 = q.1 := by
              intro he
              exact hnd.1 (he ▸ List.mem_map_of_mem Prod.fst hq)
            cases hl : lookupA acc q.1 with
            | some v => rw [hl] at h1; simp at h1
            | none => simp [h2]

/-! ### Lemmas about `dictKeys`, `write_chunks` and the deregistration steps -/
@[simp] theorem dictKeys_nil : dictKeys [] = [] := by rw [dictKeys]

theorem dictKeys_cons (h : String) (t : List String) :
    dictKeys (h :: t) = h :: dictKeys (t.filter (fun x => x ≠ h)) := by
  rw [dictKeys]

theorem mem_dictKeys_aux :
    ∀ (k : Nat) (l : List String), l.length ≤ k → ∀ x, x ∈ dictKeys l ↔ x ∈ l := by
  intro k
  induction k with
  | zero =>
      intro l hl
      obtain rfl : l = [] := List.eq_nil_of_length_eq_zero (Nat.le_zero.mp hl)
      simp
  | succ k ih =>
      intro l hl x
      cases l with
      | nil => simp
      | cons h t =>
          rw [dictKeys_cons]
          have hlen : (t.filter (fun x => x ≠ h)).length ≤ k := by
            have := List.length_filter_le (fun x => decide (x ≠ h)) t
            simp at hl
            omega
          by_cases hx : x = h
          · subst hx; simp
          · rw [List.mem_cons, List.mem_cons]
            rw [ih _ hlen x, List.mem_filter]
            simp [hx]

theorem mem_dictKeys (l : List String) (x : String) : x ∈ dictKeys l ↔ x ∈ l :=
  mem_dictKeys_aux l.length l le_rfl x

theorem dictKeys_nodup_aux :
    ∀ (k : Nat) (l : List String), l.length ≤ k → (dictKeys l).Nodup := by
  intro k
  induction k with
  | zero =>
      intro l hl
      obtain rfl : l = [] := List.eq_nil_of_length_eq_zero (Nat.le_zero.mp hl)
      simp
  | succ k ih =>
      intro l hl
      cases l with
      | nil => simp
      | cons h t =>
          rw [dictKeys_cons]
          have hlen : (t.filter (fun x => x ≠ h)).length ≤ k := by
            have := List.length_filter_le (fun x => decide (x ≠ h)) t
            simp at hl
            omega
          rw [List.nodup_cons]
          refine ⟨?_, ih _ hlen⟩
          intro hmem
          rw [mem_dictKeys, List.mem_filter] at hmem
          simp at hmem

theorem dictKeys_nodup (l : List String) : (dictKeys l).Nodup :=
  dictKeys_nodup_aux l.length l le_rfl

theorem dictKeys_sublist_aux :
    ∀ (k : Nat) (l : List String), l.length ≤ k → (dictKeys l).Sublist l := by
  intro k
  induction k with
  | zero =>
      intro l hl
      obtain rfl : l = [] := List.eq_nil_of_length_eq_zero (Nat.le_zero.mp hl)
      simp
  | succ k ih =>
      intro l hl
      cases l with
      | nil => simp
      | cons h t =>
          rw [dictKeys_cons]
          have hlen : (t.filter (fun x => x ≠ h)).length ≤ k := by
            have := List.length_filter_le (fun x => decide (x ≠ h)) t
            simp at hl
            omega
          exact List.Sublist.cons₂ h ((ih _ hlen).trans (List.filter_sublist t))

theorem dictKeys_sublist (l : List String) : (dictKeys l).Sublist l :=
  dictKeys_sublist_aux l.length l le_rfl

theorem dictKeys_of_nodup_aux :
    ∀ (k : Nat) (l : List String), l.length ≤ k → l.Nodup → dictKeys l = l := by
  intro k
  induction k with
  | zero =>
      intro l hl _
      obtain rfl : l = [] := List.eq_nil_of_length_eq_zero (Nat.le_zero.mp hl)
      simp
  | succ k ih =>
      intro l hl hnd
      cases l with
      | nil => simp
      | cons h t =>
          rw [dictKeys_cons]
          rw [List.nodup_cons] at hnd
          have hfil : t.filter (fun x => x ≠ h) = t := by
            rw [List.filter_eq_self]
            intro a ha
            simp
            intro he
            exact hnd.1 (he ▸ ha)
          rw [hfil]
          have hlen : t.length ≤ k := by simp at hl; omega
          rw [ih _ hlen hnd.2]

theorem dictKeys_of_nodup (l : List String) (h : l.Nodup) : dictKeys l = l :=
  dictKeys_of_nodup_aux l.length l le_rfl h

/-- If the deduplicated key list is the whole list, the list had no
duplicates. -/
theorem nodup_of_dictKeys_eq (l : List String) (h : dictKeys l = l) : l.Nodup :=
  h ▸ dictKeys_nodup l

/-- Characterisation of the write-out loop: it appends the bytes of the
longest all-verified prefix (in entry order) and reports whether any entry
fails verification. -/
theorem write_chunks_eq (hashFn : List Nat → String) (items : List (String × List Nat)) :
    write_chunks hashFn items =
      (((items.takeWhile (fun it => hashFn it.2 = it.1)).map Prod.snd).flatten,
       items.any (fun it => hashFn it.2 ≠ it.1)) := by
  induction items with
  | nil => simp [write_chunks]
  | cons it rest ih =>
      obtain ⟨h, bs⟩ := it
      by_cases hv : hashFn bs = h
      · simp only [write_chunks, hv, not_true_eq_false, if_neg, ne_eq, ih,
          List.takeWhile_cons, List.any_cons, decide_eq_true_eq]
        simp [hv]
      · simp only [write_chunks, ne_eq, hv, not_false_eq_true, if_pos,
          List.takeWhile_cons, List.any_cons]
        simp [hv]

/-- A proper sublist of a list of positive weights has strictly smaller
weight sum. -/
theorem sublist_map_sum_lt (w : String → Nat) {l1 l2 : List String}
    (hsub : l1.Sublist l2) (hne : l1 ≠ l2) (hpos : ∀ x ∈ l2, 0 < w x) :
    (l1.map w).sum < (l2.map w).sum := by
  induction hsub with
  | slnil => exact absurd rfl hne
  | @cons l1' l2' a hsub ih =>
      have hle : (l1'.map w).sum ≤ (l2'.map w).sum :=
        List.Sublist.sum_le_sum (hsub.map w) (by intro b _; exact Nat.zero_le b)
      have ha : 0 < w a := hpos a (List.mem_cons_self a l2')
      simp only [List.map_cons, List.sum_cons]
      omega
  | @cons₂ l1' l2' a hsub ih =>
      have hne' : l1' ≠ l2' := by
        intro he; exact hne (by rw [he])
      have := ih hne' (fun x hx => hpos x (List.mem_cons_of_mem a hx))
      simp only [List.map_cons, List.sum_cons]
      omega

/-- Handler `URGPR` rewrites every seeder set pointwise (peer removal) and keeps every
key. -/
theorem urgprStep_chunks_lookup (σ : Registry) (ps : List String) (x : String) :
    lookupA (urgprStep σ ps).chunks x =
      (lookupA σ.chunks x).map (fun v => v.filter (fun q => q ∉ ps)) :=
  lookupA_mapVal σ.chunks (fun _ v => v.filter (fun q => q ∉ ps)) x

/-- The `URGCK` fold never touches `files` and never adds or removes chunk
keys. -/
theorem urgckStep_invariant (p : String) (hs : List String) :
    ∀ (σ₀ : Registry) (n₀ : Nat),
      (hs.foldl
        (fun st h =>
          if hasKey st.1.chunks h then
            if p ∈ lookupD st.1.chunks h [] then
              (⟨st.1.files, assocSet st.1.chunks h (removePeer (lookupD st.1.chunks h []) p)⟩,
               st.2 + 1)
            else st
          else st)
        (σ₀, n₀)).1.files = σ₀.files
      ∧ ∀ x, hasKey (hs.foldl
          (fun st h =>
            if hasKey st.1.chunks h then
              if p ∈ lookupD st.1.chunks h [] then
                (⟨st.1.files, assocSet st.1.chunks h (removePeer (lookupD st.1.chunks h []) p)⟩,
                 st.2 + 1)
              else st
            else st)
          (σ₀, n₀)).1.chunks x = hasKey σ₀.chunks x := by
  induction hs with
  | nil => intro σ₀ n₀; exact ⟨rfl, fun _ => rfl⟩
  | cons h t ih =>
      intro σ₀ n₀
      simp only [List.foldl_cons]
      by_cases hk : hasKey σ₀.chunks h
      · by_cases hp : p ∈ lookupD σ₀.chunks h []
        · rw [if_pos hk, if_pos hp]
          obtain ⟨h1, h2⟩ := ih ⟨σ₀.files, assocSet σ₀.chunks h (removePeer (lookupD σ₀.chunks h []) p)⟩ (n₀ + 1)
          refine ⟨h1, fun x => ?_⟩
          rw [h2 x]
          dsimp only
          rw [hasKey_assocSet]
          by_cases hx : h = x
          · subst hx; simp [hk]
          · simp [hx]
        · rw [if_pos hk, if_neg hp]
          exact ih σ₀ n₀
      · rw [if_neg hk]
        exact ih σ₀ n₀

theorem urgckStep_files (σ : Registry) (p : String) (hs : List String) :
    (urgckStep σ p hs).1.files = σ.files :=
  (urgckStep_invariant p hs σ 0).1

theorem urgckStep_hasKey (σ : Registry) (p : String) (hs : List String) (x : String) :
    hasKey (urgckStep σ p hs).1.chunks x = hasKey σ.chunks x :=
  (urgckStep_invariant p hs σ 0).2 x

theorem chunkKeysInv_empty : chunkKeysInv Registry.empty := by
  intro f hs h
  simp [Registry.empty] at h

theorem chunkKeysInv_step (σ : Registry) (r : CSQ) (hinv : chunkKeysInv σ) :
    chunkKeysInv (serverStep σ r).1 := by
  cases r with
  | getaf => exact hinv
  | getfi f => exact hinv
  | getck h => exact hinv
  | unknown t => exact hinv
  | regfi f hs =>
      intro g gs hg h hh
      have hg' : lookupA (assocSet σ.files f hs) g = some gs := hg
      rw [lookupA_assocSet] at hg'
      show (lookupA (regfiStep σ f hs).1.chunks h).isSome = true
      rw [regfiStep_chunks_lookup]
      by_cases hmem : h ∈ hs
      · rw [if_pos hmem]; rfl
      · rw [if_neg hmem]
        by_cases hgf : f = g
        · rw [if_pos hgf] at hg'
          injection hg' with he
          exact absurd (he ▸ hh) hmem
        · rw [if_neg hgf] at hg'
          exact hinv g gs hg' h hh
  | regck p hs =>
      intro g gs hg h hh
      have hg' : lookupA σ.files g = some gs := by
        have hf := regckStep_files σ p hs
        have hg₂ : lookupA (regckStep σ p hs).1.files g = some gs := hg
        rw [hf] at hg₂
        exact hg₂
      show (lookupA (regckStep σ p hs).1.chunks h).isSome = true
      rw [regckStep_chunks_lookup]
      by_cases hc : hasKey σ.chunks h = true ∧ h ∈ hs
      · rw [if_pos hc]; rfl
      · rw [if_neg hc]
        exact hinv g gs hg' h hh
  | urgpr ps =>
      intro g gs hg h hh
      have hg' : lookupA σ.files g = some gs := hg
      show (lookupA (urgprStep σ ps).chunks h).isSome = true
      rw [urgprStep_chunks_lookup]
      have hk : (lookupA σ.chunks h).isSome = true := hinv g gs hg' h hh
      cases hx : lookupA σ.chunks h with
      | none => rw [hx] at hk; simp at hk
      | some v => simp [hx]
  | urgck p hs =>
      intro g gs hg h hh
      have hg' : lookupA σ.files g = some gs := by
        have hf := urgckStep_files σ p hs
        have hg₂ : lookupA (urgckStep σ p hs).1.files g = some gs := hg
        rw [hf] at hg₂
        exact hg₂
      show hasKey (urgckStep σ p hs).1.chunks h = true
      rw [urgckStep_hasKey]
      exact hinv g gs hg' h hh

theorem chunkKeysInv_applyAll (reqs : List CSQ) :
    ∀ σ, chunkKeysInv σ → chunkKeysInv (applyAll reqs σ) := by
  induction reqs with
  | nil => intro σ h; exact h
  | cons r rest ih =>
      intro σ h
      exact ih _ (chunkKeysInv_step σ r h)

theorem files_lookup_preserved (σ : Registry) (f : String) (r : CSQ)
    (hr : overwritesFile f r = false) :
    lookupA (serverStep σ r).1.files f = lookupA σ.files f := by
  cases r with
  | getaf => rfl
  | getfi g => rfl
  | getck h => rfl
  | unknown t => rfl
  | regfi g hs =>
      show lookupA (assocSet σ.files g hs) f = lookupA σ.files f
      rw [lookupA_assocSet]
      simp only [overwritesFile, decide_eq_false_iff_not] at hr
      rw [if_neg hr]
  | regck p hs =>
      show lookupA (regckStep σ p hs).1.files f = lookupA σ.files f
      rw [regckStep_files]
  | urgpr ps => rfl
  | urgck p hs =>
      show lookupA (urgckStep σ p hs).1.files f = lookupA σ.files f
      rw [urgckStep_files]

theorem applyAll_files_lookup (f : String) (reqs : List CSQ)
    (hr : ∀ r ∈ reqs, overwritesFile f r = false) :
    ∀ σ, lookupA (applyAll reqs σ).files f = lookupA σ.files f := by
  induction reqs with
  | nil => intro σ; rfl
  | cons r rest ih =>
      intro σ
      have h1 := files_lookup_preserved σ f r (hr r (List.mem_cons_self r rest))
      have h2 := ih (fun q hq => hr q (List.mem_cons_of_mem r hq)) (serverStep σ r).1
      exact h2.trans h1

/-! ## Claim C6 -/
/-- Claim C6 (confirmed): for every byte sequence, `chunk_file` yields chunks of
length at most `CHUNK_SIZE`, every chunk except possibly the last of length
exactly `CHUNK_SIZE`, and concatenating the chunks in order reproduces the
original bytes.  `CHUNK_SIZE` is any positive block size (its concrete value
lives in `config.py`, outside the tree). -/
theorem chunk_file_spec (n : Nat) (l : List Nat) (hn : 0 < n) :
    (∀ c ∈ chunk_file n l, c.length ≤ n)
    ∧ (∀ c ∈ (chunk_file n l).dropLast, c.length = n)
    ∧ (chunk_file n l).flatten = l := by
  obtain ⟨m, rfl⟩ : ∃ m, n = m + 1 := ⟨n - 1, by omega⟩
  exact ⟨chunk_file_length_le m l, chunk_file_full_blocks m l, chunk_file_join m l⟩

theorem chunk_file_spec_witness :
    0 < 2 ∧ (chunk_file 2 [9, 8, 7]).flatten = [9, 8, 7] :=
  ⟨by decide, (chunk_file_spec 2 [9, 8, 7] (by decide)).2.2⟩

/-! ## Claim C3 -/
/-- Claim C3 counterexample: the claim says seeder-set membership of hashes
already present in the registry is left unchanged by `REGFI`; but re-listing
hash `"h"` (which already has seeder `"p"`) resets its seeder set to empty,
because the handler runs `chunks[h] = set()` for **every** listed hash. -/
theorem regfi_resets_existing_seeders_cex :
    lookupA (Registry.mk [] [("h", ["p"])]).chunks "h" = some ["p"]
    ∧ lookupA (serverStep (Registry.mk [] [("h", ["p"])]) (CSQ.regfi "f" ["h"])).1.chunks "h"
        = some [] := by
  exact ⟨rfl, rfl⟩

/-- Claim C3 (corrected): `REGFI` replaces the named file's chunk-hash sequence
(last writer wins) and leaves other files' entries unchanged; it resets the
seeder set of **every hash listed in the request** to empty — including
hashes that were already present, whose previous seeder membership is lost —
while hashes not listed in the request keep their seeder sets unchanged. -/
theorem regfi_spec (σ : Registry) (f : String) (hs : List String) :
    lookupA (serverStep σ (.regfi f hs)).1.files f = some hs
    ∧ (∀ g, g ≠ f → lookupA (serverStep σ (.regfi f hs)).1.files g = lookupA σ.files g)
    ∧ (∀ h ∈ hs, lookupA (serverStep σ (.regfi f hs)).1.chunks h = some [])
    ∧ (∀ h, h ∉ hs → lookupA (serverStep σ (.regfi f hs)).1.chunks h = lookupA σ.chunks h)
    ∧ (serverStep σ (.regfi f hs)).2 = CSS.regfi hs.length := by
  refine ⟨?_, ?_, ?_, ?_, rfl⟩
  · show lookupA (assocSet σ.files f hs) f = some hs
    rw [lookupA_assocSet, if_pos rfl]
  · intro g hg
    show lookupA (assocSet σ.files f hs) g = lookupA σ.files g
    rw [lookupA_assocSet, if_neg (fun he => hg he.symm)]
  · intro h hh
    show lookupA (regfiStep σ f hs).1.chunks h = some []
    rw [regfiStep_chunks_lookup, if_pos hh]
  · intro h hh
    show lookupA (regfiStep σ f hs).1.chunks h = lookupA σ.chunks h
    rw [regfiStep_chunks_lookup, if_neg hh]

theorem regfi_spec_witness :
    lookupA (serverStep (Registry.mk [] [("h0", ["q"])]) (CSQ.regfi "f" ["h1"])).1.chunks "h0"
      = some ["q"] :=
  (regfi_spec (Registry.mk [] [("h0", ["q"])]) "f" ["h1"]).2.2.2.1 "h0" (by decide)

/-! ## Claim C5 -/
/-- Claim C5 (confirmed): a `REGCK` request never creates a chunk entry; a
seeder is added only for hashes already in the registry; the reply count is
the number of listed hashes present in the registry; and listing an unknown
hash makes the count strictly less than the number of hashes requested. -/
theorem regck_spec (σ : Registry) (p : String) (hs : List String) :
    (∀ x, lookupA σ.chunks x = none →
        lookupA (serverStep σ (.regck p hs)).1.chunks x = none)
    ∧ (serverStep σ (.regck p hs)).2
        = CSS.regck ((hs.filter (fun h => hasKey σ.chunks h)).length)
    ∧ ((∃ h ∈ hs, hasKey σ.chunks h = false) →
        (hs.filter (fun h => hasKey σ.chunks h)).length < hs.length)
    ∧ (∀ x q, q ∈ lookupD (serverStep σ (.regck p hs)).1.chunks x [] →
        q ∈ lookupD σ.chunks x [] ∨ (q = p ∧ x ∈ hs ∧ hasKey σ.chunks x = true)) := by
  refine ⟨?_, ?_, ?_, ?_⟩
  · intro x hx
    show lookupA (regckStep σ p hs).1.chunks x = none
    rw [regckStep_chunks_lookup]
    have hk : hasKey σ.chunks x = false := by simp [hasKey, hx]
    have hnc : ¬(hasKey σ.chunks x = true ∧ x ∈ hs) := by
      intro hc; rw [hk] at hc; simp at hc
    rw [if_neg hnc]
    exact hx
  · show CSS.regck (regckStep σ p hs).2 = _
    rw [regckStep_count]
  · rintro ⟨h, hmem, hfalse⟩
    rw [List.length_filter_lt_length_iff_exists]
    exact ⟨h, hmem, by simp [hfalse]⟩
  · intro x q hq
    have hq' : q ∈ lookupD (regckStep σ p hs).1.chunks x [] := hq
    rw [lookupD, regckStep_chunks_lookup] at hq'
    by_cases hc : hasKey σ.chunks x = true ∧ x ∈ hs
    · rw [if_pos hc] at hq'
      simp only [Option.getD_some] at hq'
      rcases (mem_addPeer _ p q).mp hq' with h | h
      · exact Or.inl h
      · exact Or.inr ⟨h, hc.2, hc.1⟩
    · rw [if_neg hc] at hq'
      exact Or.inl hq'

theorem regck_spec_witness :
    ((["h1", "zz"].filter
        (fun h => hasKey (Registry.mk [("f", ["h1"])] [("h1", [])]).chunks h)).length)
      < ["h1", "zz"].length :=
  (regck_spec (Registry.mk [("f", ["h1"])] [("h1", [])]) "peer" ["h1", "zz"]).2.2.1
    ⟨"zz", by decide, by decide⟩

/-! ## Claim C9 -/
/-- Claim C9 (confirmed): in every registry state reachable from the empty maps
by any request sequence, every chunk hash occurring in a registered file's
chunk-hash sequence is a key of the chunk-to-seeders map — `REGFI` creates a
key for every hash it registers, and the deregistration handlers remove peer
membership only, never chunk keys. -/
theorem registry_chunk_keys (reqs : List CSQ) (f h : String) (hs : List String)
    (hf : lookupA (applyAll reqs Registry.empty).files f = some hs) (hh : h ∈ hs) :
    hasKey (applyAll reqs Registry.empty).chunks h = true :=
  chunkKeysInv_applyAll reqs Registry.empty chunkKeysInv_empty f hs hf h hh

theorem registry_chunk_keys_witness :
    hasKey (applyAll [CSQ.regfi "f" ["h"], CSQ.urgck "p" ["h"]] Registry.empty).chunks "h"
      = true :=
  registry_chunk_keys [CSQ.regfi "f" ["h"], CSQ.urgck "p" ["h"]] "f" "h" ["h"]
    (by decide) (by decide)

/-! ## Claim C7 -/
/-- Reply `GETAF` reports, for each file, the size of the intersection of its
chunks' seeder sets. -/
theorem lookupA_get_files (σ : Registry) (f : String) :
    lookupA (get_files σ) f =
      (lookupA σ.files f).map
        (fun v =>
          if v.isEmpty then 0
          else (commonPeers (v.map (fun h => lookupD σ.chunks h []))).length) :=
  lookupA_mapVal σ.files
    (fun _ v =>
      if v.isEmpty then 0
      else (commonPeers (v.map (fun h => lookupD σ.chunks h []))).length) f

/-- Claim C7 (confirmed): after `REGFI` registers a file with three chunk
hashes (and before any `REGCK`), `GETAF` reports that file with seed count 0;
after one peer registers itself via `REGCK` against all three hashes, `GETAF`
reports seed count 1 — the count is the size of the intersection of the
per-chunk seeder sets, i.e. the peers seeding every chunk of the file. -/
theorem getaf_seed_count (σ : Registry) (f p h1 h2 h3 : String) :
    lookupA (get_files (applyAll [CSQ.regfi f [h1, h2, h3]] σ)) f = some 0
    ∧ lookupA (get_files (applyAll [CSQ.regfi f [h1, h2, h3], CSQ.regck p [h1, h2, h3]] σ)) f
        = some 1 := by
  have hfile1 : lookupA (regfiStep σ f [h1, h2, h3]).1.files f = some [h1, h2, h3] := by
    rw [regfiStep_files, lookupA_assocSet, if_pos rfl]
  have hchunk1 : ∀ h ∈ [h1, h2, h3],
      lookupA (regfiStep σ f [h1, h2, h3]).1.chunks h = some [] := by
    intro h hh
    rw [regfiStep_chunks_lookup, if_pos hh]
  have hchunk2 : ∀ h ∈ [h1, h2, h3],
      lookupA (regckStep (regfiStep σ f [h1, h2, h3]).1 p [h1, h2, h3]).1.chunks h
        = some [p] := by
    intro h hh
    rw [regckStep_chunks_lookup]
    rw [if_pos ⟨by simp [hasKey, hchunk1 h hh], hh⟩]
    rw [lookupD, hchunk1 h hh]
    rfl
  constructor
  · show lookupA (get_files (regfiStep σ f [h1, h2, h3]).1) f = some 0
    rw [lookupA_get_files, hfile1]
    have e1 : lookupD (regfiStep σ f [h1, h2, h3]).1.chunks h1 [] = [] := by
      rw [lookupD, hchunk1 h1 (by simp)]; rfl
    have e2 : lookupD (regfiStep σ f [h1, h2, h3]).1.chunks h2 [] = [] := by
      rw [lookupD, hchunk1 h2 (by simp)]; rfl
    have e3 : lookupD (regfiStep σ f [h1, h2, h3]).1.chunks h3 [] = [] := by
      rw [lookupD, hchunk1 h3 (by simp)]; rfl
    simp [commonPeers, e1, e2, e3]
  · show lookupA (get_files (regckStep (regfiStep σ f [h1, h2, h3]).1 p [h1, h2, h3]).1) f
        = some 1
    rw [lookupA_get_files, regckStep_files, hfile1]
    have e1 : lookupD (regckStep (regfiStep σ f [h1, h2, h3]).1 p [h1, h2, h3]).1.chunks h1 []
        = [p] := by
      rw [lookupD, hchunk2 h1 (by simp)]; rfl
    have e2 : lookupD (regckStep (regfiStep σ f [h1, h2, h3]).1 p [h1, h2, h3]).1.chunks h2 []
        = [p] := by
      rw [lookupD, hchunk2 h2 (by simp)]; rfl
    have e3 : lookupD (regckStep (regfiStep σ f [h1, h2, h3]).1 p [h1, h2, h3]).1.chunks h3 []
        = [p] := by
      rw [lookupD, hchunk2 h3 (by simp)]; rfl
    simp [commonPeers, e1, e2, e3]

/-! ## Claim C8 -/
/-- Claim C8 (confirmed): `GETFI` is a pure query — it never changes the
registry state; once a file is registered, `GETFI` keeps returning the same
ordered chunk-hash sequence across any requests that are not a `REGFI` for
the same name; and `GETFI` for an unknown file name returns the empty
list. -/
theorem getfi_spec (σ : Registry) (f : String) (hs : List String) (reqs : List CSQ)
    (hreqs : ∀ r ∈ reqs, overwritesFile f r = false) :
    (serverStep σ (.getfi f)).1 = σ
    ∧ (serverStep (applyAll reqs (serverStep σ (.regfi f hs)).1) (.getfi f)).2 = CSS.getfi hs
    ∧ (lookupA σ.files f = none → (serverStep σ (.getfi f)).2 = CSS.getfi []) := by
  refine ⟨rfl, ?_, ?_⟩
  · show CSS.getfi (lookupD (applyAll reqs (serverStep σ (.regfi f hs)).1).files f []) = _
    rw [lookupD, applyAll_files_lookup f reqs hreqs]
    have hreg : lookupA (serverStep σ (.regfi f hs)).1.files f = some hs := by
      show lookupA (assocSet σ.files f hs) f = some hs
      rw [lookupA_assocSet, if_pos rfl]
    rw [hreg]
    rfl
  · intro hnone
    show CSS.getfi (lookupD σ.files f []) = CSS.getfi []
    rw [lookupD, hnone]
    rfl

theorem getfi_spec_witness :
    (serverStep
      (applyAll [CSQ.regck "q" ["h1"], CSQ.regfi "g" ["x"]]
        (serverStep Registry.empty (CSQ.regfi "f" ["h1", "h2"])).1)
      (CSQ.getfi "f")).2 = CSS.getfi ["h1", "h2"] :=
  (getfi_spec Registry.empty "f" ["h1", "h2"] [CSQ.regck "q" ["h1"], CSQ.regfi "g" ["x"]]
    (by decide)).2.1

/-! ## Claim C4 -/
/-- Claim C4 (confirmed): when a seeding worker receives `PPQ_GETCK` for a
chunk hash absent from its local store, it replies `PPS_ERROR`, closes only
its own connection, and handling ends there — the `sys.exit(0)` raises
`SystemExit` on the worker thread only, so the seeding process survives and
the accept loop goes on answering every other connection. -/
theorem handle_peer_missing_chunk (store : List (String × List Nat)) (n : Nat)
    (h : String) (hmiss : hasKey store h = false) :
    handle_peer store n (.getck h)
        = ⟨.errorReply "Chunk unavailable on requested peer.", true, true, false, false⟩
    ∧ (handle_peer store n (.getck h)).processExited = false
    ∧ ∀ (pre post : List PPQ),
        serveAll store n (pre ++ PPQ.getck h :: post)
          = serveAll store n pre
            ++ PPS.errorReply "Chunk unavailable on requested peer." :: serveAll store n post := by
  have h1 : handle_peer store n (.getck h)
      = ⟨.errorReply "Chunk unavailable on requested peer.", true, true, false, false⟩ := by
    simp [handle_peer, hmiss]
  refine ⟨h1, by rw [h1], ?_⟩
  intro pre post
  simp only [serveAll, List.map_append, List.map_cons, h1]

theorem handle_peer_missing_chunk_witness :
    serveAll [("k", [1])] 2 ([PPQ.pping] ++ PPQ.getck "z" :: [PPQ.getck "k"])
      = serveAll [("k", [1])] 2 [PPQ.pping]
        ++ PPS.errorReply "Chunk unavailable on requested peer."
          :: serveAll [("k", [1])] 2 [PPQ.getck "k"] :=
  (handle_peer_missing_chunk [("k", [1])] 2 "z" (by decide)).2.2 [PPQ.pping] [PPQ.getck "k"]

/-- Claim C1 counterexample: the claim says an integrity failure writes no
output file; but with a two-chunk file whose second chunk is corrupted, the
download reports the integrity failure **after** having already appended the
first (verified) chunk to `downloads/<userId>/<fileName>` — the output is
`[0]`, not empty. -/
theorem download_truncates_output_cex :
    (download_finish c1Hash ["a", "b"] c1Result).failed = true
    ∧ (download_finish c1Hash ["a", "b"] c1Result).integrityFailure = true
    ∧ (download_finish c1Hash ["a", "b"] c1Result).output = [0] := by
  have hdk : dictKeys ["a", "b"] = ["a", "b"] := by
    simp [dictKeys]
  refine ⟨?_, ?_, ?_⟩ <;>
    simp [download_finish, hdk, c1Hash, c1Result, write_chunks]

/-- Claim C1 (corrected): past the join barrier, if any dispatched chunk worker
failed to return data the download is FAILED and nothing is written under
`downloads/<userId>/<fileName>`; if every worker returned data, the run
reports an integrity failure exactly when some received chunk's digest
mismatches its hash, it is FAILED in that case, and the output file holds the
concatenation of the longest all-verified prefix of the chunks (in reassembly
order) — so on an integrity failure the chunks preceding the first mismatch
have already been appended to the output file, which is empty only when the
first chunk is the mismatching one. -/
theorem download_finish_spec (hashFn : List Nat → String) (hs : List String)
    (result : String → Option (List Nat)) :
    ((dictKeys hs).any (fun k => (result k).isNone) = true →
        download_finish hashFn hs result = ⟨true, false, []⟩)
    ∧ ((dictKeys hs).any (fun k => (result k).isNone) = false →
        download_finish hashFn hs result =
          ⟨((dictKeys hs).map (fun k => (k, (result k).getD []))).any
              (fun it => hashFn it.2 ≠ it.1),
           ((dictKeys hs).map (fun k => (k, (result k).getD []))).any
              (fun it => hashFn it.2 ≠ it.1),
           ((((dictKeys hs).map (fun k => (k, (result k).getD []))).takeWhile
              (fun it => hashFn it.2 = it.1)).map Prod.snd).flatten⟩) := by
  constructor
  · intro hmiss
    simp [download_finish, hmiss]
  · intro hall
    simp [download_finish, hall, write_chunks_eq]

theorem download_finish_spec_witness :
    download_finish c1Hash ["a", "a"] (fun _ => none) = ⟨true, false, []⟩ :=
  (download_finish_spec c1Hash ["a", "a"] (fun _ => none)).1
    (by rw [show dictKeys ["a", "a"] = ["a"] by simp [dictKeys]]; rfl)

/-! ## Claim C10 -/
/-- Lemma: `takeWhile` keeps the whole list when the predicate holds everywhere. -/
theorem takeWhile_all (p : α → Bool) :
    ∀ l : List α, (∀ a ∈ l, p a = true) → l.takeWhile p = l := by
  intro l
  induction l with
  | nil => intro _; rfl
  | cons a t ih =>
      intro hall
      rw [List.takeWhile_cons, if_pos (hall a (List.mem_cons_self a t))]
      rw [ih (fun b hb => hall b (List.mem_cons_of_mem a hb))]

/-- Claim C10 (confirmed): the download result map is keyed by chunk hash, so
reassembly writes each distinct chunk's bytes exactly once, in
first-occurrence order; consequently (for chunks with at least one byte, as
`chunk_file` produces) the reassembled file equals the per-occurrence
concatenation of the registered sequence exactly when the sequence has no
duplicate hashes. -/
theorem download_dedup_spec (hashFn : List Nat → String) (content : String → List Nat)
    (hs : List String)
    (hverify : ∀ h ∈ hs, hashFn (content h) = h)
    (hnonempty : ∀ h ∈ hs, content h ≠ []) :
    (download_finish hashFn hs (fun h => some (content h))).output
        = ((dictKeys hs).map content).flatten
    ∧ ((download_finish hashFn hs (fun h => some (content h))).output
          = (hs.map content).flatten ↔ hs.Nodup) := by
  have hnomiss : (dictKeys hs).any (fun k => (some (content k)).isNone) = false := by
    simp
  have hitems :
      (dictKeys hs).map (fun k => (k, ((fun h => some (content h)) k).getD []))
        = (dictKeys hs).map (fun k => (k, content k)) := by
    simp
  have hver' : ∀ it ∈ (dictKeys hs).map (fun k => (k, content k)),
      (decide (hashFn it.2 = it.1)) = true := by
    intro it hit
    obtain ⟨k, hk, rfl⟩ := List.mem_map.mp hit
    simp only [decide_eq_true_eq]
    exact hverify k ((mem_dictKeys hs k).mp hk)
  have houtput : (download_finish hashFn hs (fun h => some (content h))).output
      = ((dictKeys hs).map content).flatten := by
    simp only [download_finish, hnomiss, Bool.false_eq_true, if_neg,
      not_false_eq_true, write_chunks_eq]
    rw [show ((dictKeys hs).map fun k => (k, (some (content k)).getD []))
          = (dictKeys hs).map (fun k => (k, content k)) by simp]
    rw [takeWhile_all _ _ hver']
    rw [List.map_map]
    rfl
  refine ⟨houtput, ?_⟩
  rw [houtput]
  constructor
  · intro heq
    by_contra hnd
    have hsub := dictKeys_sublist hs
    have hne : dictKeys hs ≠ hs := fun he => hnd (nodup_of_dictKeys_eq hs he)
    have hlt := sublist_map_sum_lt (fun h => (content h).length) hsub hne
      (fun x hx => List.length_pos.mpr (hnonempty x hx))
    have hlen : (((dictKeys hs).map content).flatten).length
        = ((hs.map content).flatten).length := by rw [heq]
    rw [List.length_flatten, List.length_flatten, List.map_map, List.map_map] at hlen
    have : ((dictKeys hs).map (fun h => (content h).length)).sum
        = (hs.map (fun h => (content h).length)).sum := hlen
    omega
  · intro hnd
    rw [dictKeys_of_nodup hs hnd]

theorem download_dedup_spec_witness :
    (download_finish c10Hash ["a", "b"] (fun h => some (c10Content h))).output
      = ((dictKeys ["a", "b"]).map c10Content).flatten :=
  (download_dedup_spec c10Hash c10Content ["a", "b"] (by decide) (by decide)).1

/-- Claim C2 counterexample: the claim says the candidate with the minimum
**numeric** load is selected; but the code stores the PPONG payload as a
`str` and Python `min` compares those strings lexicographically, so between
loads 9 and 10 it picks the candidate reporting 10 (`"10" < "9"` as
strings), while the numeric reading picks the one reporting 9. -/
theorem choose_peer_lexicographic_cex :
    choose_peer c2Probes = some ("pb", 2)
    ∧ choose_peer_numeric c2Probes = some ("pa", 1)
    ∧ decimalVal "9" < decimalVal "10" := by
  refine ⟨by decide, by decide, by decide⟩

/-- Claim C2 (corrected): for candidates with pairwise-distinct addresses,
`choose_peer` returns `none` exactly when zero candidates answer within the
timeout; otherwise it returns the answering candidate whose reported load
string is minimal in **lexicographic string order** (not numeric order),
ties broken by the first minimum encountered in probe order. -/
theorem choose_peer_spec (probes : List (PeerAddr × Option String))
    (hnd : (probes.map Prod.fst).Nodup) :
    (choose_peer probes = none ↔ ∀ pr ∈ probes, pr.2 = none)
    ∧ (∀ q, choose_peer probes = some q →
        ∃ load l1 l2,
          probes.filterMap (fun pr => pr.2.map (fun l => (pr.1, l))) = l1 ++ (q, load) :: l2
          ∧ (∀ y ∈ probes.filterMap (fun pr => pr.2.map (fun l => (pr.1, l))),
              pyStrLt y.2 load = false)
          ∧ ∀ y ∈ l1, pyStrLt load y.2 = true) := by
  have hbuild : choose_peer probes
      = selectMinKey (probes.filterMap (fun pr => pr.2.map (fun l => (pr.1, l)))) := by
    rw [choose_peer, activeBuild_eq probes [] hnd (fun _ _ => rfl)]
    rw [List.nil_append]
  constructor
  · rw [hbuild]
    cases hact : probes.filterMap (fun pr => pr.2.map (fun l => (pr.1, l))) with
    | nil =>
        simp only [selectMinKey]
        constructor
        · intro _ pr hpr
          have hm := List.filterMap_eq_nil_iff.mp hact pr hpr
          cases hpr2 : pr.2 with
          | none => rfl
          | some l => rw [hpr2] at hm; simp at hm
        · intro _; trivial
    | cons x xs =>
        simp only [selectMinKey]
        constructor
        · intro h; exact absurd h (by simp)
        · intro hall
          have hnil : probes.filterMap (fun pr => pr.2.map (fun l => (pr.1, l))) = [] := by
            rw [List.filterMap_eq_nil_iff]
            intro pr hpr
            rw [hall pr hpr]
            rfl
          rw [hact] at hnil
          exact absurd hnil (by simp)
  · intro q hq
    rw [hbuild] at hq
    cases hact : probes.filterMap (fun pr => pr.2.map (fun l => (pr.1, l))) with
    | nil => rw [hact] at hq; simp [selectMinKey] at hq
    | cons x xs =>
        rw [hact] at hq
        simp only [selectMinKey, Option.some.injEq] at hq
        obtain ⟨l1, l2, heq, hlt⟩ := foldMin_first x xs
        have hmin := foldMin_min x xs
        refine ⟨(xs.foldl (fun best y => if pyStrLt y.2 best.2 then y else best) x).2,
          l1, l2, ?_, ?_, hlt⟩
        · rw [← hq, Prod.mk.eta]
          exact heq
        · intro y hy
          exact hmin y hy

theorem choose_peer_spec_witness :
    ∃ load l1 l2,
      ([(("h1", 1), some "3"), (("h2", 2), none), (("h3", 3), some "2")]
          : List (PeerAddr × Option String)).filterMap
          (fun pr => pr.2.map (fun l => (pr.1, l)))
        = l1 ++ ((("h3", 3) : PeerAddr), load) :: l2
      ∧ (∀ y ∈ ([(("h1", 1), some "3"), (("h2", 2), none), (("h3", 3), some "2")]
            : List (PeerAddr × Option String)).filterMap
            (fun pr => pr.2.map (fun l => (pr.1, l))),
          pyStrLt y.2 load = false)
      ∧ ∀ y ∈ l1, pyStrLt load y.2 = true :=
  (choose_peer_spec
    [(("h1", 1), some "3"), (("h2", 2), none), (("h3", 3), some "2")]
    (by decide)).2 ("h3", 3) (by decide)

end P2P
